import Mathlib

/-!
Verification of the assembler core in `src/src/assembler/assembler.h`
(namespace `Ripes::AssemblerTmp`, class `AssemblerBase<ISA>`).

The embedding models the four assembler passes (`pass0` … `pass3`), the
line-classification helpers (`splitSymbolsFromLine`, `splitDirectivesFromLine`,
`splitCommentFromLine`), the lexer (`tokenize`), the driver (`assemble`) and
the `disassemble` entry point.  The template parameter `ISA` together with the
instruction / pseudo-instruction / directive tables (whose classes live in
headers not present in the repository snapshot) is modelled as an explicit
`ISAModel` record of functions; the driver code itself is translated
line-by-line from the header.

Machine integers are modelled as `Nat` with explicit `% 2 ^ w` at the points
where the C++ code truncates (serialization of a `uint32_t` into the byte
image).  `std::variant<Error, T>` results are modelled as `Except Error T`;
the error lists returned by the passes as `Except (List Error) T`.
C++ exceptions escaping `disassemble` are modelled by the `CppException`
error type of its result.
-/

/-- `Error` from assembler_defines.h: a source line paired with a message. -/
structure Error where
  sourceLine : Nat
  message : String
deriving DecidableEq

/-- `TokenizedSrcLine` from assembler_defines.h: source line index, the set of
symbols and set of directives attached to the line, and the remaining tokens. -/
structure TokenizedSrcLine where
  sourceLine : Nat := 0
  symbols : List String := []
  directives : List String := []
  tokens : List String := []
deriving DecidableEq

/-- QString::contains(QChar): membership of a character in a string. -/
def qContains (s : String) (c : Char) : Bool :=
  s.data.contains c

/-- QString::startsWith(QChar): the first character equals `c`. -/
def qStartsWith (s : String) (c : Char) : Bool :=
  match s.data with
  | [] => false
  | x :: _ => x = c

/-- QString::remove(QChar): remove every occurrence of the character. -/
def qRemoveAll (s : String) (c : Char) : String :=
  String.mk (s.data.filter (fun x => x ≠ c))

/-- Lexicographic comparison of character lists by code point, as by
`QString::operator<`. -/
def charsLt : List Char → List Char → Bool
  | [], [] => false
  | [], _ :: _ => true
  | _ :: _, [] => false
  | a :: as, b :: bs =>
    if a.toNat < b.toNat then true
    else if b.toNat < a.toNat then false
    else charsLt as bs

/-- `QString::operator<`: lexicographic order on the characters. -/
def strLt (a b : String) : Bool :=
  charsLt a.data b.data

/-- std::set insertion (kept as a sorted duplicate-free list, mirroring the
ordered iteration of `std::set<QString>`). -/
def setInsert : List String → String → List String
  | [], x => [x]
  | y :: ys, x =>
    if strLt x y then x :: y :: ys
    else if x = y then y :: ys
    else y :: setInsert ys x

/-- std::set range insertion `s.insert(t.begin(), t.end())`. -/
def setUnion (s t : List String) : List String :=
  t.foldl setInsert s

/-- `SymbolMap` from assembler_defines.h: `std::map<QString, uint32_t>`,
kept as a sorted association list. -/
abbrev SymbolMap := List (String × Nat)

/-- std::map lookup (`count` / `at`). -/
def mapLookup : List (String × Nat) → String → Option Nat
  | [], _ => none
  | (k, v) :: r, s => if k = s then some v else mapLookup r s

/-- std::map keyed insertion `m[s] = v` (the driver only inserts absent keys). -/
def mapInsert : List (String × Nat) → String → Nat → List (String × Nat)
  | [], s, v => [(s, v)]
  | (k, w) :: r, s, v =>
    if strLt s k then (s, v) :: (k, w) :: r
    else if s = k then (s, v) :: r
    else (k, w) :: mapInsert r s v

/-- The register-name alternation of the lexer's splitter regex, matched
against a whole string: `x0..x31`, `t0..t6`, `a0..a7`, `s0..s11`, `sp`, `gp`,
`tp`, `zero` (assembler.h line 366). -/
def isRegNameChars : List Char → Bool
  | ['x', a] => a.isDigit
  | ['x', a, b] => ((a = '1' ∨ a = '2') ∧ b.isDigit) ∨ (a = '3' ∧ (b = '0' ∨ b = '1'))
  | ['t', a] => ('0' ≤ a ∧ a ≤ '6') ∨ a = 'p'
  | ['a', a] => ('0' ≤ a ∧ a ≤ '7' : Bool)
  | ['s', a] => a.isDigit ∨ a = 'p'
  | ['s', '1', b] => b = '0' ∨ b = '1'
  | ['g', 'p'] => true
  | ['z', 'e', 'r', 'o'] => true
  | _ => false

/-- The lookahead of the splitter regex after a left bracket: does the
register-name alternation match a prefix of the remaining characters?
(Every two-character alternative beginning with a digit is subsumed by the
one-digit alternative, so only the second character matters.) -/
def regNameAhead : List Char → Bool
  | 'x' :: a :: _ => a.isDigit
  | 't' :: a :: _ => ('0' ≤ a ∧ a ≤ '6') ∨ a = 'p'
  | 'a' :: a :: _ => ('0' ≤ a ∧ a ≤ '7' : Bool)
  | 's' :: a :: _ => a.isDigit ∨ a = 'p'
  | 'g' :: 'p' :: _ => true
  | 'z' :: 'e' :: 'r' :: 'o' :: _ => true
  | _ => false

/-- The lookbehind of the splitter regex before a right bracket: do the
characters already consumed (most recent first) end with a register name? -/
def regNameBehind (before : List Char) : Bool :=
  isRegNameChars (before.take 2).reverse ∨
  isRegNameChars (before.take 3).reverse ∨
  isRegNameChars (before.take 4).reverse

/-- QString::split against the lexer's splitter regex (assembler.h lines
364-368): a token boundary at every tab, at a left bracket followed by a
register name, and at a right bracket preceded by a register name (the
bracket or tab itself is consumed).  Empty parts are kept, as by
`QString::split` with default behaviour. -/
def qsplitGo : List Char → List Char → List Char → List String → List String
  | [], _, cur, acc => acc ++ [String.mk cur.reverse]
  | c :: rest, before, cur, acc =>
    if c = '\t' ∨ (c = '(' ∧ regNameAhead rest) ∨ (c = ')' ∧ regNameBehind before) then
      qsplitGo rest (c :: before) [] (acc ++ [String.mk cur.reverse])
    else
      qsplitGo rest (c :: before) (c :: cur) acc

/-- The regex split performed by `tokenize`. -/
def qsplit (s : String) : List String :=
  qsplitGo s.data [] [] []

/-- Modelled from the spec: the per-part worker of `splitQuotes`
(lexerutilities.h, which is not in src/).  Outside a quoted literal,
whitespace separates tokens; a quoted literal is kept verbatim (quotes
included) with its interior whitespace; an unterminated quote is an error. -/
def splitQuotesGo : List Char → List Char → Bool → List String → Except Error (List String)
  | [], cur, inQuote, acc =>
    if inQuote then .error ⟨0, "Missing terminating quote character"⟩
    else .ok (acc ++ [String.mk cur.reverse])
  | c :: rest, cur, inQuote, acc =>
    if c = '"' then splitQuotesGo rest (c :: cur) (!inQuote) acc
    else if c = ' ' ∧ ¬inQuote then splitQuotesGo rest [] false (acc ++ [String.mk cur.reverse])
    else splitQuotesGo rest (c :: cur) inQuote acc

/-- Modelled from the spec: `splitQuotes` (lexerutilities.h, not in src/).
After the regex split, whitespace-separated sub-tokens are produced, quoted
literals are kept as single tokens, an unterminated quote is an error, and
empty resulting tokens are dropped. -/
def splitQuotes (parts : List String) : Except Error (List String) := do
  let nested ← parts.mapM (fun p => splitQuotesGo p.data [] false [])
  pure (nested.flatten.filter (fun t => t ≠ ""))

/-- `AssemblerBase::tokenize` (assembler.h lines 364-368):
`splitQuotes(line.split(splitter))`. -/
def tokenize (line : String) : Except Error (List String) :=
  splitQuotes (qsplit line)

/-- The token scan of `AssemblerBase::splitSymbolsFromLine` (assembler.h lines
403-424): a token containing a colon is a symbol while symbols are still
allowed (all colons are removed from it, duplicates within the line are an
error, a colon token after a non-symbol token is a stray colon); every other
token is appended to the remaining tokens and ends the symbol prefix. -/
def splitSymbolsGo (sourceLine : Nat) :
    List String → List String → List String → Bool → Except Error (List String × List String)
  | [], symbols, remaining, _ => .ok (symbols, remaining)
  | t :: rest, symbols, remaining, symbolStillAllowed =>
    if qContains t ':' then
      if symbolStillAllowed then
        let cleanedSymbol := qRemoveAll t ':'
        if cleanedSymbol ∈ symbols then
          .error ⟨sourceLine, "Multiple definitions of symbol '" ++ cleanedSymbol ++ "'"⟩
        else
          splitSymbolsGo sourceLine rest (setInsert symbols cleanedSymbol) remaining symbolStillAllowed
      else
        .error ⟨sourceLine, "Stray ':' in line"⟩
    else
      splitSymbolsGo sourceLine rest symbols (remaining ++ [t]) false

/-- `AssemblerBase::splitSymbolsFromLine` (assembler.h lines 398-425). -/
def splitSymbolsFromLine (tokens : List String) (sourceLine : Nat) :
    Except Error (List String × List String) :=
  if tokens = [] then .ok ([], tokens)
  else splitSymbolsGo sourceLine tokens [] [] true

/-- The token scan of `AssemblerBase::splitDirectivesFromLine` (assembler.h
lines 433-449): a token starting with a dot is a directive while directives
are still allowed, a dot token after a non-directive token is a stray dot;
every other token ends the directive prefix. -/
def splitDirectivesGo (sourceLine : Nat) :
    List String → List String → List String → Bool → Except Error (List String × List String)
  | [], directives, remaining, _ => .ok (directives, remaining)
  | t :: rest, directives, remaining, directivesStillAllowed =>
    if qStartsWith t '.' then
      if directivesStillAllowed then
        splitDirectivesGo sourceLine rest (setInsert directives t) remaining directivesStillAllowed
      else
        .error ⟨sourceLine, "Stray '.' in line"⟩
    else
      splitDirectivesGo sourceLine rest directives (remaining ++ [t]) false

/-- `AssemblerBase::splitDirectivesFromLine` (assembler.h lines 427-450). -/
def splitDirectivesFromLine (tokens : List String) (sourceLine : Nat) :
    Except Error (List String × List String) :=
  if tokens = [] then .ok ([], tokens)
  else splitDirectivesGo sourceLine tokens [] [] true

/-- The loop of `AssemblerBase::splitCommentFromLine` (assembler.h lines
457-466): keep tokens strictly before the first token containing the comment
delimiter. -/
def splitCommentGo (delim : Char) : List String → List String → List String
  | [], acc => acc
  | t :: rest, acc => if qContains t delim then acc else splitCommentGo delim rest (acc ++ [t])

/-- `AssemblerBase::splitCommentFromLine` (assembler.h lines 452-467). -/
def splitCommentFromLine (delim : Char) (tokens : List String) (_sourceLine : Nat) :
    Except Error (List String) :=
  .ok (if tokens = [] then tokens else splitCommentGo delim tokens [])

/-- `FieldLinkRequest` (instruction.h, shape per assembler.h usage): the
requested symbol and the `Imm::applySymbolResolution` behaviour of the field
that requested linkage, as a function of (symbol value, instruction word,
instruction offset). -/
structure FieldLinkRequest where
  symbol : String := ""
  applySymbolResolution : Nat → Nat → Nat → Nat := fun _ instr _ => instr

/-- `InstrRes` (instruction.h, shape per assembler.h usage): the encoded
instruction word and an optional link request (empty symbol means none). -/
structure InstrRes where
  instruction : Nat
  linksWithSymbol : FieldLinkRequest := {}

/-- `AssemblerBase::LinkRequest` (assembler.h lines 57-63). -/
structure LinkRequest where
  sourceLine : Nat
  offset : Nat
  fieldRequest : FieldLinkRequest

/-- The ISA-dependent tables and virtual members the `AssemblerBase<ISA>`
template is instantiated with: the comment delimiter, the instruction /
pseudo-instruction / directive maps (each entry keyed by name, mapping a
tokenized line to its result as in instruction.h, pseudoinstruction.h and
directive.h), and the matcher with the per-instruction disassembler
(matcher.h / instruction.h).  Matched instructions are identified by an
index; `instrDisassemble id word address reverseMap` is the per-word
`Instruction::disassemble` call. -/
structure ISAModel where
  commentDelimiter : Char
  instructionMap : List (String × (TokenizedSrcLine → Except Error InstrRes))
  pseudoInstructionMap : List (String × (TokenizedSrcLine → Except Error (Option (List (List String)))))
  directivesMap : List (String × (TokenizedSrcLine → Except Error (Option (List Nat))))
  matchInstruction : Nat → Except Error Nat
  instrDisassemble : Nat → Nat → Nat → List (Nat × String) → Except Error (List String)

/-- `AssemblerBase::assembleInstruction` (assembler.h lines 370-380). -/
def assembleInstruction (isa : ISAModel) (line : TokenizedSrcLine) : Except Error InstrRes :=
  match line.tokens with
  | [] => .error ⟨line.sourceLine, "Empty source lines should be impossible at this point"⟩
  | opcode :: _ =>
    match List.lookup opcode isa.instructionMap with
    | none => .error ⟨line.sourceLine, "Unknown opcode '" ++ opcode ++ "'"⟩
    | some f => f line

/-- `AssemblerBase::assembleDirective` (assembler.h lines 382-393). -/
def assembleDirective (isa : ISAModel) (line : TokenizedSrcLine) : Except Error (Option (List Nat)) :=
  match line.tokens with
  | [] => .error ⟨line.sourceLine, "Empty source lines should be impossible at this point"⟩
  | directive :: _ =>
    match List.lookup directive isa.directivesMap with
    | none => .ok none
    | some h => h line

/-- `AssemblerBase::expandPseudoOp` (assembler.h lines 352-362). -/
def expandPseudoOp (isa : ISAModel) (line : TokenizedSrcLine) :
    Except Error (Option (List (List String))) :=
  match line.tokens with
  | [] => .ok none
  | opcode :: _ =>
    match List.lookup opcode isa.pseudoInstructionMap with
    | none => .ok none
    | some p => p line

/-- The per-line body of `pass0` (assembler.h lines 147-159): tokenize the
line, split the symbol prefix, classify the directive prefix of the
symbol-stripped tokens, and strip the comment from the symbol-stripped tokens
(the source passes `symbolsAndRest.second`, not the directive-stripped list,
to `splitCommentFromLine`).  The first failing operation aborts the line with
its error, as by the `runOperation` macro. -/
def pass0Step (isa : ISAModel) (i : Nat) (line : String) : Except Error TokenizedSrcLine := do
  let tokens ← tokenize line
  let symbolsAndRest ← splitSymbolsFromLine tokens i
  let directivesAndRest ← splitDirectivesFromLine symbolsAndRest.2 i
  let remainingTokens ← splitCommentFromLine isa.commentDelimiter symbolsAndRest.2 i
  pure ⟨i, symbolsAndRest.1, directivesAndRest.1, remainingTokens⟩

/-- The loop of `pass0` (assembler.h lines 143-170) with its carry of symbols
from pure-label lines: empty source lines are skipped; a failing line adds its
error and is dropped; a line with symbols but no tokens adds its symbols to
the carry; a line with tokens absorbs the carry into its symbols and clears
it; a line with neither symbols nor tokens is appended unchanged. -/
def pass0Go (isa : ISAModel) :
    List String → Nat → List String → List Error → List TokenizedSrcLine →
    List Error × List TokenizedSrcLine
  | [], _, _, errors, acc => (errors, acc)
  | line :: rest, i, carry, errors, acc =>
    if line = "" then pass0Go isa rest (i + 1) carry errors acc
    else
      match pass0Step isa i line with
      | .error e => pass0Go isa rest (i + 1) carry (errors ++ [e]) acc
      | .ok tsl =>
        if tsl.symbols ≠ [] ∧ tsl.tokens = [] then
          pass0Go isa rest (i + 1) (setUnion carry tsl.symbols) errors acc
        else if tsl.tokens ≠ [] then
          pass0Go isa rest (i + 1) [] errors
            (acc ++ [{ tsl with symbols := setUnion tsl.symbols carry }])
        else
          pass0Go isa rest (i + 1) carry errors (acc ++ [tsl])

/-- `AssemblerBase::pass0` (assembler.h lines 133-176): errors are returned
iff any were produced, else the tokenized program. -/
def pass0 (isa : ISAModel) (programLines : List String) :
    Except (List Error) (List TokenizedSrcLine) :=
  let r := pass0Go isa programLines 0 [] [] []
  if r.1 = [] then .ok r.2 else .error r.1

/-- The expansion loop of `pass1` (assembler.h lines 194-204): the first
expanded line keeps the source line's symbols and directives, all expanded
lines keep its source line index, subsequent lines carry empty symbol and
directive sets. -/
def expandLines (line : TokenizedSrcLine) : List (List String) → List TokenizedSrcLine
  | [] => []
  | toks :: rest =>
    ⟨line.sourceLine, line.symbols, line.directives, toks⟩ ::
      rest.map (fun t => ⟨line.sourceLine, [], [], t⟩)

/-- The loop of `pass1` (assembler.h lines 187-209): expand pseudo
instructions, keep non-pseudo lines, collect errors. -/
def pass1Go (isa : ISAModel) :
    List TokenizedSrcLine → List Error → List TokenizedSrcLine →
    List Error × List TokenizedSrcLine
  | [], errors, acc => (errors, acc)
  | line :: rest, errors, acc =>
    match expandPseudoOp isa line with
    | .error e => pass1Go isa rest (errors ++ [e]) acc
    | .ok none => pass1Go isa rest errors (acc ++ [line])
    | .ok (some eops) => pass1Go isa rest errors (acc ++ expandLines line eops)

/-- `AssemblerBase::pass1` (assembler.h lines 182-216). -/
def pass1 (isa : ISAModel) (tokenizedLines : List TokenizedSrcLine) :
    Except (List Error) (List TokenizedSrcLine) :=
  let r := pass1Go isa tokenizedLines [] []
  if r.1 = [] then .ok r.2 else .error r.1

/-- Little-endian serialization of a `uint32_t` instruction word into the
byte image (`program.append(QByteArray(reinterpret_cast<char*>(&...), 4))`,
assembler.h lines 250-251, on a little-endian host). -/
def toBytesLE (w : Nat) : List Nat :=
  [w % 256, w / 256 % 256, w / 65536 % 256, w / 16777216 % 256]

/-- The symbol-recording loop of `pass2` (assembler.h lines 230-236): each
symbol of the line is bound to the instruction offset unless it is already
bound, in which case a multiple-definition error is recorded and the first
binding is kept. -/
def pass2Syms (sourceLine : Nat) :
    List String → Nat → SymbolMap → List Error → SymbolMap × List Error
  | [], _, symbolMap, errors => (symbolMap, errors)
  | s :: rest, offset, symbolMap, errors =>
    if (mapLookup symbolMap s).isSome then
      pass2Syms sourceLine rest offset symbolMap
        (errors ++ [⟨sourceLine, "Multiple definitions of symbol '" ++ s ++ "'"⟩])
    else
      pass2Syms sourceLine rest offset (mapInsert symbolMap s offset) errors

/-- The loop of `pass2` (assembler.h lines 228-256): bind the line's symbols
to the current image size, then emit directive bytes or the encoded
instruction word, recording a link request when the instruction references a
symbol; a failing line records its error and emits nothing. -/
def pass2Go (isa : ISAModel) :
    List TokenizedSrcLine → List Nat → List Error → SymbolMap → List LinkRequest →
    List Nat × List Error × SymbolMap × List LinkRequest
  | [], program, errors, symbolMap, needsLinkage => (program, errors, symbolMap, needsLinkage)
  | line :: rest, program, errors, symbolMap, needsLinkage =>
    let instrOffset := program.length
    let se := pass2Syms line.sourceLine line.symbols instrOffset symbolMap errors
    match assembleDirective isa line with
    | .error e => pass2Go isa rest program (se.2 ++ [e]) se.1 needsLinkage
    | .ok (some directiveBytes) =>
      pass2Go isa rest (program ++ directiveBytes) se.2 se.1 needsLinkage
    | .ok none =>
      match assembleInstruction isa line with
      | .error e => pass2Go isa rest program (se.2 ++ [e]) se.1 needsLinkage
      | .ok machineCode =>
        let needsLinkage' :=
          if machineCode.linksWithSymbol.symbol ≠ "" then
            needsLinkage ++ [⟨line.sourceLine, instrOffset, machineCode.linksWithSymbol⟩]
          else needsLinkage
        pass2Go isa rest (program ++ toBytesLE machineCode.instruction) se.2 se.1 needsLinkage'

/-- `AssemblerBase::pass2` (assembler.h lines 224-262).  The symbol map and
link requests are caller-owned state in the source; they are returned
alongside the errors-or-image result. -/
def pass2 (isa : ISAModel) (tokenizedLines : List TokenizedSrcLine) :
    Except (List Error) (List Nat) × SymbolMap × List LinkRequest :=
  let r := pass2Go isa tokenizedLines [] [] [] []
  (if r.2.1 = [] then .ok r.1 else .error r.2.1, r.2.2.1, r.2.2.2)

/-- Little-endian read of the `uint32_t` at `offset` in the byte image
(assembler.h line 277). -/
def readWordLE (program : List Nat) (offset : Nat) : Nat :=
  program.getD offset 0 + 256 * program.getD (offset + 1) 0 +
    65536 * program.getD (offset + 2) 0 + 16777216 * program.getD (offset + 3) 0

/-- Little-endian writeback of a `uint32_t` at `offset` in the byte image
(assembler.h line 287). -/
def writeWordLE (program : List Nat) (offset : Nat) (w : Nat) : List Nat :=
  (((program.set offset (w % 256)).set (offset + 1) (w / 256 % 256)).set
      (offset + 2) (w / 65536 % 256)).set (offset + 3) (w / 16777216 % 256)

/-- The loop of `pass3` (assembler.h lines 267-288): for each link request,
an unknown symbol records an error; otherwise the word at the request's
offset is read, the field's symbol resolution is applied and the word is
written back. -/
def pass3Go (symbolMap : SymbolMap) :
    List LinkRequest → List Nat → List Error → List Nat × List Error
  | [], program, errors => (program, errors)
  | linkRequest :: rest, program, errors =>
    match mapLookup symbolMap linkRequest.fieldRequest.symbol with
    | none =>
      pass3Go symbolMap rest program
        (errors ++ [⟨linkRequest.sourceLine,
          "Unknown symbol '" ++ linkRequest.fieldRequest.symbol ++ "'"⟩])
    | some symbolValue =>
      let instr := readWordLE program linkRequest.offset
      let instr' := linkRequest.fieldRequest.applySymbolResolution symbolValue instr linkRequest.offset
      pass3Go symbolMap rest (writeWordLE program linkRequest.offset instr') errors

/-- `AssemblerBase::pass3` (assembler.h lines 264-294): the byte image is
patched in place; the errors are returned alongside it. -/
def pass3 (symbolMap : SymbolMap) (needsLinkage : List LinkRequest) (program : List Nat) :
    List Nat × List Error :=
  pass3Go symbolMap needsLinkage program []

/-- `AssembleResult` from assembler_defines.h: the byte image and the error
list, both default-empty. -/
structure AssembleResult where
  program : List Nat := []
  errors : List Error := []
deriving DecidableEq

/-- `AssemblerBase::assemble` (assembler.h lines 72-94): run the four passes
through the `runPass` macro; a pass returning errors copies them into the
result and returns it immediately (with the default-empty program), skipping
all later passes; on success the (pass3-patched) image is returned. -/
def assemble (isa : ISAModel) (programLines : List String) : AssembleResult :=
  match pass0 isa programLines with
  | .error errs => { program := [], errors := errs }
  | .ok tokenizedLines =>
    match pass1 isa tokenizedLines with
    | .error errs => { program := [], errors := errs }
    | .ok expandedLines =>
      match pass2 isa expandedLines with
      | (.error errs, _, _) => { program := [], errors := errs }
      | (.ok program, symbolMap, needsLinkage) =>
        let r := pass3 symbolMap needsLinkage program
        if r.2 = [] then { program := r.1, errors := [] }
        else { program := [], errors := r.2 }

/-- A C++ exception escaping `disassemble`: the `std::runtime_error` thrown
for unaligned input, or a `std::bad_variant_access` from `std::get`. -/
inductive CppException where
  | runtimeError (msg : String)
  | badVariantAccess
deriving DecidableEq

/-- `DisassembleResult` from assembler_defines.h. -/
structure DisassembleResult where
  program : List String := []
  errors : List Error := []
deriving DecidableEq

/-- The loop of `disassemble` (assembler.h lines 102-122), walking the bytes
four at a time.  An unmatched word records the matcher's error and continues.
On a match, the instruction's `disassemble` is invoked with a fresh empty
`ReverseSymbolMap()`; the inner try block then re-reads `std::get<Error>` from
`match` — which is known to hold the instruction pointer in this branch, so
that `std::get` always throws and the catch always runs — and the catch
applies `std::get<LineTokens>` to `tokens`, which throws
`std::bad_variant_access` out of `disassemble` whenever the per-word
disassembly returned an `Error`. -/
def disasmGo (isa : ISAModel) (baseAddress : Nat) :
    List Nat → Nat → List String → List Error → Except CppException DisassembleResult
  | [], _, prog, errs => .ok ⟨prog, errs⟩
  | b0 :: b1 :: b2 :: b3 :: rest, i, prog, errs =>
    let instructionWord := b0 + 256 * b1 + 65536 * b2 + 16777216 * b3
    match isa.matchInstruction instructionWord with
    | .error e => disasmGo isa baseAddress rest (i + 4) prog (errs ++ [e])
    | .ok instrId =>
      match isa.instrDisassemble instrId instructionWord (baseAddress + i) [] with
      | .error _ => .error .badVariantAccess
      | .ok tokens => disasmGo isa baseAddress rest (i + 4) (prog ++ [String.intercalate " " tokens]) errs
  | _, _, prog, errs => .ok ⟨prog, errs⟩

/-- `AssemblerBase::disassemble` (assembler.h lines 96-124). -/
def disassemble (isa : ISAModel) (program : List Nat) (baseAddress : Nat) :
    Except CppException DisassembleResult :=
  if program.length % 4 ≠ 0 then
    .error (.runtimeError "Program instructions unaligned with instruction size")
  else disasmGo isa baseAddress program 0 [] []

/-- Modelled from the spec: decimal digit-string parsing used by the ISA
instance's immediate fields ("an Imm field parses an integer literal",
instruction.h not in src/). -/
def digitsVal : List Char → Nat → Option Nat
  | [], acc => some acc
  | c :: rest, acc => if c.isDigit then digitsVal rest (acc * 10 + (c.toNat - 48)) else none

/-- Modelled from the spec: integer-literal parsing (optionally negative
decimal). -/
def parseIntTok (s : String) : Option Int :=
  match s.data with
  | [] => none
  | '-' :: rest => if rest = [] then none else (digitsVal rest 0).map (fun n => -(n : Int))
  | cs => (digitsVal cs 0).map (fun n => (n : Int))

/-- Modelled from the spec: register-name parsing for a Reg field, numeric
`xN` form with `N ≤ 31` (register recognition is delegated to the ISA
descriptor, which is not in src/). -/
def parseReg (s : String) : Option Nat :=
  match s.data with
  | 'x' :: ds =>
    match digitsVal ds 0 with
    | some n => if ds ≠ [] ∧ n ≤ 31 then some n else none
    | none => none
  | _ => none

/-- Splitting an operand token on commas, used by the modelled field walk. -/
def splitOnComma : List Char → List Char → List String → List String
  | [], cur, acc => acc ++ [String.mk cur.reverse]
  | c :: rest, cur, acc =>
    if c = ',' then splitOnComma rest [] (acc ++ [String.mk cur.reverse])
    else splitOnComma rest (c :: cur) acc

/-- Modelled from the spec: the RV32I `addi` instruction entry
(`Instruction::assemble`, instruction.h not in src/): tokens are the mnemonic
and one comma-joined operand token `rd,rs1,imm`; the I-type word is
opcode 0b0010011 with rd at bit 7, funct3 000, rs1 at bit 15 and the
sign-encoded 12-bit immediate at bit 20; an out-of-range immediate is an
error. -/
def addiAssemble (line : TokenizedSrcLine) : Except Error InstrRes :=
  match line.tokens with
  | [_, args] =>
    match splitOnComma args.data [] [] with
    | [rdTok, rs1Tok, immTok] =>
      match parseReg rdTok, parseReg rs1Tok, parseIntTok immTok with
      | some rd, some rs1, some imm =>
        if -2048 ≤ imm ∧ imm ≤ 2047 then
          .ok { instruction := 19 + rd * 128 + rs1 * 32768 + (imm.emod 4096).toNat * 1048576 }
        else .error ⟨line.sourceLine, "Immediate out of range"⟩
      | _, _, _ => .error ⟨line.sourceLine, "Invalid operands"⟩
    | _ => .error ⟨line.sourceLine, "Invalid number of operands"⟩
  | _ => .error ⟨line.sourceLine, "Invalid number of operands"⟩

/-- Modelled from the spec: a small RV32I ISA instance (isainfo.h and the
RV32I tables are not in src/): comment delimiter `#`, one real instruction
`addi`, no pseudo instructions and no directives. -/
def rv32i : ISAModel :=
  { commentDelimiter := '#'
    instructionMap := [("addi", addiAssemble)]
    pseudoInstructionMap := []
    directivesMap := []
    matchInstruction := fun _ => .error ⟨0, "Unknown instruction"⟩
    instrDisassemble := fun _ _ _ _ => .error ⟨0, "Unknown instruction"⟩ }

/-- Modelled from the spec: an ISA instance whose matcher matches every word
to instruction 0 but whose per-word `Instruction::disassemble` fails, to
exercise the recoverable-failure path of the disassembler. -/
def failingDisasmIsa : ISAModel :=
  { commentDelimiter := '#'
    instructionMap := []
    pseudoInstructionMap := []
    directivesMap := []
    matchInstruction := fun _ => .ok 0
    instrDisassemble := fun _ _ _ _ => .error ⟨0, "Invalid instruction field"⟩ }

/-- Modelled from the spec: an ISA instance with a single pseudo instruction
`li` expanding to a `lui`/`addi` pair, to exercise pass1 expansion. -/
def liPseudoIsa : ISAModel :=
  { commentDelimiter := '#'
    instructionMap := [("addi", addiAssemble)]
    pseudoInstructionMap :=
      [("li", fun _ => .ok (some [["lui", "x5,74565"], ["addi", "x5,x5,1656"]]))]
    directivesMap := []
    matchInstruction := fun _ => .error ⟨0, "Unknown instruction"⟩
    instrDisassemble := fun _ _ _ _ => .error ⟨0, "Unknown instruction"⟩ }

theorem mem_setInsert (s x : String) (xs : List String) :
    s ∈ setInsert xs x ↔ s = x ∨ s ∈ xs := by
  induction xs with
  | nil => simp [setInsert]
  | cons y ys ih =>
    simp only [setInsert]
    split
    · simp [List.mem_cons]
    · split
      · rename_i hxy
        subst hxy
        simp [List.mem_cons]
      · simp only [List.mem_cons, ih]
        tauto

theorem mem_setUnion (s : String) (xs ys : List String) :
    s ∈ setUnion xs ys ↔ s ∈ xs ∨ s ∈ ys := by
  induction ys generalizing xs with
  | nil => simp [setUnion]
  | cons y ys ih =>
    simp only [setUnion, List.foldl_cons] at *
    rw [ih (setInsert xs y), mem_setInsert]
    simp [List.mem_cons]
    tauto

theorem mapLookup_mapInsert_self (m : List (String × Nat)) (s : String) (v : Nat) :
    mapLookup (mapInsert m s v) s = some v := by
  induction m with
  | nil => simp [mapInsert, mapLookup]
  | cons kv r ih =>
    obtain ⟨k, w⟩ := kv
    simp only [mapInsert]
    split
    · simp [mapLookup]
    · split
      · simp [mapLookup]
      · rename_i hne
        simp only [mapLookup]
        rw [if_neg (fun h => hne h.symm), ih]

theorem mapLookup_mapInsert_ne (m : List (String × Nat)) (s t : String) (v : Nat)
    (h : s ≠ t) : mapLookup (mapInsert m t v) s = mapLookup m s := by
  induction m with
  | nil => simp [mapInsert, mapLookup, Ne.symm h]
  | cons kv r ih =>
    obtain ⟨k, w⟩ := kv
    simp only [mapInsert]
    split
    · simp only [mapLookup]
      rw [if_neg (fun hh => h hh.symm)]
    · split
      · rename_i htk
        subst htk
        simp only [mapLookup]
        rw [if_neg (fun hh => h hh.symm), if_neg (fun hh => h hh.symm)]
      · simp only [mapLookup]
        split
        · rfl
        · exact ih

theorem pass2Syms_preserves (i : Nat) (syms : List String) (off : Nat)
    (m : SymbolMap) (e : List Error) (s : String) (v : Nat)
    (h : mapLookup m s = some v) :
    mapLookup (pass2Syms i syms off m e).1 s = some v := by
  induction syms generalizing m e with
  | nil => simpa [pass2Syms]
  | cons t rest ih =>
    simp only [pass2Syms]
    split
    · exact ih m _ h
    · rename_i hnone
      apply ih
      have hst : s ≠ t := by
        intro hst
        subst hst
        rw [h] at hnone
        simp at hnone
      rw [mapLookup_mapInsert_ne m s t off hst]
      exact h

theorem pass2Syms_binds (i : Nat) (syms : List String) (off : Nat)
    (m : SymbolMap) (e : List Error) (s : String) :
    s ∈ syms → mapLookup m s = none →
    mapLookup (pass2Syms i syms off m e).1 s = some off := by
  induction syms generalizing m e with
  | nil => intro hmem _; simp at hmem
  | cons t rest ih =>
    intro hmem h
    simp only [pass2Syms]
    rcases List.mem_cons.mp hmem with hst | hrest
    · subst hst
      rw [h]
      simp only [Option.isSome_none, Bool.false_eq_true, if_false]
      exact pass2Syms_preserves i rest off _ e s off (mapLookup_mapInsert_self m s off)
    · split
      · exact ih m _ hrest h
      · by_cases hst : s = t
        · subst hst
          exact pass2Syms_preserves i rest off _ e s off (mapLookup_mapInsert_self m s off)
        · apply ih _ _ hrest
          rw [mapLookup_mapInsert_ne m s t off hst]
          exact h

theorem pass2Syms_error_mem (i : Nat) (syms : List String) (off : Nat)
    (m : SymbolMap) (e : List Error) (x : Error) (h : x ∈ e) :
    x ∈ (pass2Syms i syms off m e).2 := by
  induction syms generalizing m e with
  | nil => simpa [pass2Syms]
  | cons t rest ih =>
    simp only [pass2Syms]
    split
    · exact ih _ _ (by simp [h])
    · exact ih _ _ h

theorem pass2Syms_dup_error (i : Nat) (syms : List String) (off : Nat)
    (m : SymbolMap) (e : List Error) (s : String) (v : Nat) :
    s ∈ syms → mapLookup m s = some v →
    (⟨i, "Multiple definitions of symbol '" ++ s ++ "'"⟩ : Error) ∈ (pass2Syms i syms off m e).2 := by
  induction syms generalizing m e with
  | nil => intro hmem _; simp at hmem
  | cons t rest ih =>
    intro hmem h
    simp only [pass2Syms]
    rcases List.mem_cons.mp hmem with hst | hrest
    · subst hst
      rw [h]
      simp only [Option.isSome_some, if_true]
      exact pass2Syms_error_mem i rest off _ _ _ (by simp)
    · split
      · exact ih _ _ hrest h
      · rename_i hnone
        have hst : s ≠ t := by
          intro hh
          subst hh
          rw [h] at hnone
          simp at hnone
        apply ih _ _ hrest
        rw [mapLookup_mapInsert_ne m s t off hst]
        exact h

theorem pass2Go_preserves (isa : ISAModel) (lines : List TokenizedSrcLine)
    (P : List Nat) (e : List Error) (m : SymbolMap) (l : List LinkRequest)
    (s : String) (v : Nat) (h : mapLookup m s = some v) :
    mapLookup (pass2Go isa lines P e m l).2.2.1 s = some v := by
  induction lines generalizing P e m l with
  | nil => simpa [pass2Go]
  | cons line rest ih =>
    simp only [pass2Go]
    have hm := pass2Syms_preserves line.sourceLine line.symbols P.length m e s v h
    split
    · exact ih _ _ _ _ hm
    · exact ih _ _ _ _ hm
    · split
      · exact ih _ _ _ _ hm
      · exact ih _ _ _ _ hm

theorem pass2Go_link_bound (isa : ISAModel) (lines : List TokenizedSrcLine)
    (P : List Nat) (e : List Error) (m : SymbolMap) (l : List LinkRequest)
    (h : ∀ req ∈ l, req.offset + 4 ≤ P.length) :
    ∀ req ∈ (pass2Go isa lines P e m l).2.2.2, req.offset + 4 ≤ (pass2Go isa lines P e m l).1.length := by
  induction lines generalizing P e m l with
  | nil => simpa [pass2Go]
  | cons line rest ih =>
    simp only [pass2Go]
    split
    · exact ih _ _ _ _ h
    · apply ih
      intro req hreq
      calc req.offset + 4 ≤ P.length := h req hreq
        _ ≤ (P ++ _).length := by simp
    · split
      · exact ih _ _ _ _ h
      · apply ih
        intro req hreq
        rename_i machineCode _
        by_cases hlink : machineCode.linksWithSymbol.symbol ≠ ""
        · rw [if_pos hlink] at hreq
          rcases List.mem_append.mp hreq with hold | hnew
          · calc req.offset + 4 ≤ P.length := h req hold
              _ ≤ (P ++ toBytesLE machineCode.instruction).length := by simp
          · have : req = ⟨line.sourceLine, P.length, machineCode.linksWithSymbol⟩ := by
              simpa using hnew
            subst this
            simp [toBytesLE]
        · rw [if_neg hlink] at hreq
          calc req.offset + 4 ≤ P.length := h req hreq
            _ ≤ (P ++ toBytesLE machineCode.instruction).length := by simp

theorem writeWordLE_length (P : List Nat) (off w : Nat) :
    (writeWordLE P off w).length = P.length := by
  simp [writeWordLE]

theorem pass3Go_length (symbolMap : SymbolMap) (reqs : List LinkRequest)
    (P : List Nat) (e : List Error) :
    (pass3Go symbolMap reqs P e).1.length = P.length := by
  induction reqs generalizing P e with
  | nil => simp [pass3Go]
  | cons req rest ih =>
    simp only [pass3Go]
    split
    · exact ih _ _
    · rw [ih, writeWordLE_length]

theorem pass0Step_empty_line (isa : ISAModel) (k : Nat) :
    pass0Step isa k "" = .ok ⟨k, [], [], []⟩ := rfl

/-- A pure label line in the sense of pass0's carry: the per-line
classification succeeds with at least one symbol and no remaining tokens. -/
def isLabelOnlyLine (isa : ISAModel) (i : Nat) (line : String) : Prop :=
  ∃ tsl, pass0Step isa i line = .ok tsl ∧ tsl.symbols ≠ [] ∧ tsl.tokens = []

theorem pass0Go_skip_empty (isa : ISAModel) (rest : List String) (i : Nat)
    (c : List String) (e : List Error) (a : List TokenizedSrcLine) :
    pass0Go isa ("" :: rest) i c e a = pass0Go isa rest (i + 1) c e a := by
  simp [pass0Go]

theorem pass0Go_label_line (isa : ISAModel) (line : String) (rest : List String)
    (i : Nat) (c : List String) (e : List Error) (a : List TokenizedSrcLine)
    (tsl : TokenizedSrcLine) (hne : line ≠ "")
    (hstep : pass0Step isa i line = .ok tsl)
    (hsym : tsl.symbols ≠ []) (htok : tsl.tokens = []) :
    pass0Go isa (line :: rest) i c e a =
      pass0Go isa rest (i + 1) (setUnion c tsl.symbols) e a := by
  simp [pass0Go, hne, hstep, hsym, htok]

theorem pass0Go_token_line (isa : ISAModel) (line : String) (rest : List String)
    (i : Nat) (c : List String) (e : List Error) (a : List TokenizedSrcLine)
    (tsl : TokenizedSrcLine) (hne : line ≠ "")
    (hstep : pass0Step isa i line = .ok tsl)
    (htok : tsl.tokens ≠ []) :
    pass0Go isa (line :: rest) i c e a =
      pass0Go isa rest (i + 1) [] e
        (a ++ [{ tsl with symbols := setUnion tsl.symbols c }]) := by
  simp [pass0Go, hne, hstep, htok]

theorem pass0Go_seg (isa : ISAModel) :
    ∀ (seg : List String) (post : List String) (i : Nat) (c : List String)
      (e : List Error) (a : List TokenizedSrcLine),
    (∀ j (hj : j < seg.length), seg.get ⟨j, hj⟩ = "" ∨ isLabelOnlyLine isa (i + j) (seg.get ⟨j, hj⟩)) →
    ∃ c', pass0Go isa (seg ++ post) i c e a = pass0Go isa post (i + seg.length) c' e a ∧
      (∀ s, s ∈ c → s ∈ c') ∧
      (∀ j (hj : j < seg.length) tsl, pass0Step isa (i + j) (seg.get ⟨j, hj⟩) = .ok tsl →
        ∀ s ∈ tsl.symbols, s ∈ c') := by
  intro seg
  induction seg with
  | nil =>
    intro post i c e a _
    exact ⟨c, by simp, fun s hs => hs, fun j hj => by simp at hj⟩
  | cons line seg' ih =>
    intro post i c e a hseg
    have h0 := hseg 0 (by simp)
    simp only [List.get, Nat.add_zero] at h0
    have hseg' : ∀ j (hj : j < seg'.length),
        seg'.get ⟨j, hj⟩ = "" ∨ isLabelOnlyLine isa (i + 1 + j) (seg'.get ⟨j, hj⟩) := by
      intro j hj
      have := hseg (j + 1) (by simpa using Nat.succ_lt_succ hj)
      have harith : i + (j + 1) = i + 1 + j := by omega
      simpa [List.get, harith] using this
    rcases h0 with hempty | hlabel
    · subst hempty
      obtain ⟨c', hgo, hsub, hsyms⟩ := ih post (i + 1) c e a hseg'
      refine ⟨c', ?_, hsub, ?_⟩
      · rw [List.cons_append, pass0Go_skip_empty, hgo]
        congr 1
        simp [Nat.add_comm, Nat.add_assoc, Nat.add_left_comm]
      · intro j hj tsl hstep s hs
        match j with
        | 0 =>
          simp only [List.get, Nat.add_zero, pass0Step_empty_line] at hstep
          cases hstep
          simp at hs
        | j + 1 =>
          have hj' : j < seg'.length := by simpa using Nat.lt_of_succ_lt_succ hj
          apply hsyms j hj' tsl _ s hs
          have harith : i + (j + 1) = i + 1 + j := by omega
          rw [harith] at hstep
          simpa [List.get] using hstep
    · obtain ⟨tsl0, hstep0, hsym0, htok0⟩ := hlabel
      have hne : line ≠ "" := by
        intro hl
        subst hl
        rw [pass0Step_empty_line] at hstep0
        cases hstep0
        simp at hsym0
      obtain ⟨c', hgo, hsub, hsyms⟩ := ih post (i + 1) (setUnion c tsl0.symbols) e a hseg'
      refine ⟨c', ?_, ?_, ?_⟩
      · rw [List.cons_append,
          pass0Go_label_line isa line (seg' ++ post) i c e a tsl0 hne hstep0 hsym0 htok0, hgo]
        congr 1
        simp [Nat.add_comm, Nat.add_assoc, Nat.add_left_comm]
      · intro s hs
        exact hsub s ((mem_setUnion s c tsl0.symbols).mpr (Or.inl hs))
      · intro j hj tsl hstep s hs
        match j with
        | 0 =>
          simp only [List.get, Nat.add_zero] at hstep
          rw [hstep0] at hstep
          have heq : tsl = tsl0 := (Except.ok.inj hstep).symm
          subst heq
          exact hsub s ((mem_setUnion s c tsl.symbols).mpr (Or.inr hs))
        | j + 1 =>
          have hj' : j < seg'.length := by simpa using Nat.lt_of_succ_lt_succ hj
          apply hsyms j hj' tsl _ s hs
          have harith : i + (j + 1) = i + 1 + j := by omega
          rw [harith] at hstep
          simpa [List.get] using hstep

theorem pass0Go_acc (isa : ISAModel) :
    ∀ (lines : List String) (i : Nat) (c : List String) (e : List Error)
      (a : List TokenizedSrcLine),
    pass0Go isa lines i c e a =
      (e ++ (pass0Go isa lines i c [] []).1, a ++ (pass0Go isa lines i c [] []).2) := by
  intro lines
  induction lines with
  | nil => intro i c e a; simp [pass0Go]
  | cons line rest ih =>
    intro i c e a
    by_cases hne : line = ""
    · subst hne
      rw [pass0Go_skip_empty, pass0Go_skip_empty, ih]
    · cases hstep : pass0Step isa i line with
      | error err =>
        simp only [pass0Go, if_neg hne, hstep]
        rw [ih (i + 1) c (e ++ [err]) a, ih (i + 1) c ([] ++ [err]) []]
        simp
      | ok tsl =>
        by_cases hlab : tsl.symbols ≠ [] ∧ tsl.tokens = []
        · simp only [pass0Go, if_neg hne, hstep, if_pos hlab]
          exact ih _ _ _ _
        · by_cases htok : tsl.tokens ≠ []
          · simp only [pass0Go, if_neg hne, hstep, if_neg hlab, if_pos htok]
            rw [ih (i + 1) [] e
                (a ++ [(⟨tsl.sourceLine, setUnion tsl.symbols c, tsl.directives, tsl.tokens⟩ : TokenizedSrcLine)]),
              ih (i + 1) [] []
                ([] ++ [(⟨tsl.sourceLine, setUnion tsl.symbols c, tsl.directives, tsl.tokens⟩ : TokenizedSrcLine)])]
            simp
          · simp only [pass0Go, if_neg hne, hstep, if_neg hlab, if_neg htok]
            rw [ih (i + 1) c e (a ++ [tsl]), ih (i + 1) c [] ([] ++ [tsl])]
            simp

/-- C1: for every input program, a pass (0-3) that produces errors makes
`assemble` return a result whose `program` is empty and whose `errors` are
exactly that pass's errors; the definitional structure of `assemble` runs no
later pass in that case (each conjunct characterizes the result for the
first failing pass). -/
theorem assemble_short_circuits_on_first_failing_pass (isa : ISAModel) (lines : List String) :
    (∀ e, pass0 isa lines = .error e → assemble isa lines = { program := [], errors := e }) ∧
    (∀ p e, pass0 isa lines = .ok p → pass1 isa p = .error e →
      assemble isa lines = { program := [], errors := e }) ∧
    (∀ p q e m l, pass0 isa lines = .ok p → pass1 isa p = .ok q →
      pass2 isa q = (.error e, m, l) → assemble isa lines = { program := [], errors := e }) ∧
    (∀ p q P m l, pass0 isa lines = .ok p → pass1 isa p = .ok q →
      pass2 isa q = (.ok P, m, l) → (pass3 m l P).2 ≠ [] →
      assemble isa lines = { program := [], errors := (pass3 m l P).2 }) := by
  refine ⟨?_, ?_, ?_, ?_⟩
  · intro e h
    simp [assemble, h]
  · intro p e h0 h1
    simp [assemble, h0, h1]
  · intro p q e m l h0 h1 h2
    simp [assemble, h0, h1, h2]
  · intro p q P m l h0 h1 h2 h3
    simp [assemble, h0, h1, h2, h3]

/-- C1 witness: a pass-0 failure (stray colon) at a concrete program. -/
theorem assemble_short_circuits_on_first_failing_pass_witness :
    assemble rv32i ["b :"] = { program := [], errors := [⟨0, "Stray ':' in line"⟩] } :=
  (assemble_short_circuits_on_first_failing_pass rv32i ["b :"]).1
    [⟨0, "Stray ':' in line"⟩] rfl

/-- C5 (code bug): when the matcher matches a word but the per-word
`Instruction::disassemble` fails, the inner try block of `disassemble`
re-reads the already-unwrapped `match` variant instead of `tokens`, so a
`std::bad_variant_access` escapes the entry point instead of an `Error`
being accumulated for that offset. -/
theorem disassemble_exception_escapes_on_inner_failure :
    disassemble failingDisasmIsa [0, 0, 0, 0] 0 = .error .badVariantAccess := rfl

/-- C7 (code bug): a single comment-only line is pushed by pass 0 as a
`TokenizedSrcLine` with no symbols and no tokens, which pass 2 then rejects
with the error whose own message says such lines should be impossible;
assembly therefore fails instead of succeeding with zero bytes. -/
theorem comment_only_line_errors :
    assemble rv32i ["# hello"] =
      { program := [],
        errors := [⟨0, "Empty source lines should be impossible at this point"⟩] } := rfl

/-- C8 counterexample: the token `a:b` does not end in a colon, yet
`splitSymbolsFromLine` treats it as a symbol definition and records it with
every colon removed (`ab`), refuting both the colon-at-the-end condition and
the trailing-colon stripping of the claim. -/
theorem split_symbols_interior_colon_cex :
    ("a:b".data.getLast? ≠ some ':') ∧
    splitSymbolsFromLine ["a:b"] 0 = .ok (["ab"], []) := by
  exact ⟨by decide, rfl⟩

/-- C8 amended: a token is treated as a symbol definition exactly when it
contains a colon anywhere (while the symbol prefix is still open); the
recorded definition is the token with every colon removed. -/
theorem split_symbols_colon_anywhere (t : String) (i : Nat) :
    (qContains t ':' = true → splitSymbolsFromLine [t] i = .ok ([qRemoveAll t ':'], [])) ∧
    (qContains t ':' = false → splitSymbolsFromLine [t] i = .ok ([], [t])) := by
  constructor
  · intro h
    simp [splitSymbolsFromLine, splitSymbolsGo, h, setInsert]
  · intro h
    simp [splitSymbolsFromLine, splitSymbolsGo, h]

/-- C8 witness: the amended statement evaluated at the token `a:b`. -/
theorem split_symbols_colon_anywhere_witness :
    splitSymbolsFromLine ["a:b"] 0 = .ok ([qRemoveAll "a:b" ':'], []) :=
  (split_symbols_colon_anywhere "a:b" 0).1 rfl

/-- C6 counterexample: for the source line `.word 5`, pass 0 appends a line
whose directives set contains `.word` while `.word` also remains in `tokens`
(the source strips the comment from the symbol-stripped tokens, not from the
directive-stripped ones), refuting the directive-removal part of the claim. -/
theorem pass0_retains_directive_tokens_cex :
    pass0 rv32i [".word 5"] = .ok [⟨0, [], [".word"], [".word", "5"]⟩] ∧
    ¬(∀ tsl, pass0 rv32i [".word 5"] = .ok [tsl] → ∀ d ∈ tsl.directives, d ∉ tsl.tokens) := by
  refine ⟨rfl, fun h => ?_⟩
  exact h ⟨0, [], [".word"], [".word", "5"]⟩ rfl ".word" (by simp) (by simp)

/-- C6 amended: the `tokens` of a line appended by pass 0 are the tokenized
line with the symbol prefix and the comment removed (and `symbols` is the
symbol prefix); directive tokens are classified into `directives` but are
not removed from `tokens`. -/
theorem pass0_tokens_strip_symbols_and_comment_only (isa : ISAModel) (i : Nat) (line : String)
    (toks syms rest rem : List String) (tsl : TokenizedSrcLine)
    (ht : tokenize line = .ok toks)
    (hs : splitSymbolsFromLine toks i = .ok (syms, rest))
    (hc : splitCommentFromLine isa.commentDelimiter rest i = .ok rem)
    (hstep : pass0Step isa i line = .ok tsl) :
    tsl.tokens = rem ∧ tsl.symbols = syms := by
  simp only [pass0Step, ht, hs, bind, Except.bind] at hstep
  cases hd : splitDirectivesFromLine rest i with
  | error e =>
    rw [hd] at hstep
    simp at hstep
  | ok dar =>
    rw [hd] at hstep
    simp only [hc, pure, Except.pure] at hstep
    cases hstep
    exact ⟨rfl, rfl⟩

/-- C6 witness: the amended statement evaluated at the line `.word 5`. -/
theorem pass0_tokens_strip_symbols_and_comment_only_witness :
    (⟨0, [], [".word"], [".word", "5"]⟩ : TokenizedSrcLine).tokens = [".word", "5"] ∧
    (⟨0, [], [".word"], [".word", "5"]⟩ : TokenizedSrcLine).symbols = [] :=
  pass0_tokens_strip_symbols_and_comment_only rv32i 0 ".word 5" [".word", "5"] []
    [".word", "5"] [".word", "5"] ⟨0, [], [".word"], [".word", "5"]⟩ rfl rfl rfl rfl

/-- C9: when pass 1 expands a pseudo instruction into N lines, the appended
lines are `expandLines line eops`; every expanded line carries the original
source line index and the original tokens of its expansion, the first
expanded line carries the original symbols and directives, and every later
expanded line carries empty symbols and directives. -/
theorem pass1_expansion_attribution (isa : ISAModel) (line : TokenizedSrcLine)
    (rest : List TokenizedSrcLine) (errors : List Error) (acc : List TokenizedSrcLine)
    (eops : List (List String)) (h : expandPseudoOp isa line = .ok (some eops)) :
    pass1Go isa (line :: rest) errors acc = pass1Go isa rest errors (acc ++ expandLines line eops) ∧
    (expandLines line eops).length = eops.length ∧
    (∀ j, j < eops.length →
      ((expandLines line eops).getD j ⟨0, [], [], []⟩).sourceLine = line.sourceLine ∧
      ((expandLines line eops).getD j ⟨0, [], [], []⟩).tokens = eops.getD j [] ∧
      ((expandLines line eops).getD j ⟨0, [], [], []⟩).symbols
        = (if j = 0 then line.symbols else []) ∧
      ((expandLines line eops).getD j ⟨0, [], [], []⟩).directives
        = (if j = 0 then line.directives else [])) := by
  refine ⟨by simp [pass1Go, h], ?_, ?_⟩
  · cases eops <;> simp [expandLines]
  · intro j hj
    cases eops with
    | nil => simp at hj
    | cons t ts =>
      cases j with
      | zero => simp [expandLines]
      | succ j =>
        have hj' : j < ts.length := by simpa using Nat.lt_of_succ_lt_succ hj
        simp [expandLines, List.getD, List.getElem?_map,
          List.getElem?_eq_getElem hj']

/-- C9 witness: the attribution applied to a concrete `li` expansion. -/
theorem pass1_expansion_attribution_witness :
    pass1Go liPseudoIsa [⟨7, ["lab"], [".text"], ["li", "x5,0x12345678"]⟩] [] [] =
      pass1Go liPseudoIsa [] []
        ([] ++ expandLines ⟨7, ["lab"], [".text"], ["li", "x5,0x12345678"]⟩
          [["lui", "x5,74565"], ["addi", "x5,x5,1656"]]) :=
  (pass1_expansion_attribution liPseudoIsa ⟨7, ["lab"], [".text"], ["li", "x5,0x12345678"]⟩
    [] [] [] [["lui", "x5,74565"], ["addi", "x5,x5,1656"]] rfl).1

theorem disasmGo_empty_map_congr (isa1 isa2 : ISAModel) (base : Nat)
    (hm : ∀ w, isa1.matchInstruction w = isa2.matchInstruction w)
    (hd : ∀ id w a, isa1.instrDisassemble id w a [] = isa2.instrDisassemble id w a []) :
    ∀ (n : Nat) (bytes : List Nat) (i : Nat) (prog : List String) (errs : List Error),
      bytes.length ≤ n →
      disasmGo isa1 base bytes i prog errs = disasmGo isa2 base bytes i prog errs := by
  intro n
  induction n with
  | zero =>
    intro bytes i prog errs hlen
    have hb : bytes = [] := List.length_eq_zero.mp (Nat.le_zero.mp hlen)
    subst hb
    rfl
  | succ n ihn =>
    intro bytes i prog errs hlen
    match bytes with
    | [] => rfl
    | [b0] => rfl
    | [b0, b1] => rfl
    | [b0, b1, b2] => rfl
    | b0 :: b1 :: b2 :: b3 :: rest =>
      simp only [disasmGo]
      rw [hm (b0 + 256 * b1 + 65536 * b2 + 16777216 * b3)]
      cases h2 : isa2.matchInstruction (b0 + 256 * b1 + 65536 * b2 + 16777216 * b3) with
      | error e =>
        exact ihn rest (i + 4) prog (errs ++ [e]) (by simp at hlen ⊢; omega)
      | ok instrId =>
        dsimp only
        rw [hd instrId (b0 + 256 * b1 + 65536 * b2 + 16777216 * b3) (base + i)]
        cases h3 : isa2.instrDisassemble instrId
            (b0 + 256 * b1 + 65536 * b2 + 16777216 * b3) (base + i) [] with
        | error e => rfl
        | ok toks =>
          exact ihn rest (i + 4) (prog ++ [String.intercalate " " toks]) errs
            (by simp at hlen ⊢; omega)

/-- C10: the `disassemble` entry point invokes every matched instruction's
per-word disassemble with a fresh empty `ReverseSymbolMap()`, so its result
is invariant under any change of the per-word disassembler away from the
empty map: the textual output depends only on the matcher, the instruction
words and the base address. -/
theorem disassemble_ignores_reverse_symbol_map (isa1 isa2 : ISAModel)
    (bytes : List Nat) (base : Nat)
    (hm : ∀ w, isa1.matchInstruction w = isa2.matchInstruction w)
    (hd : ∀ id w a, isa1.instrDisassemble id w a [] = isa2.instrDisassemble id w a []) :
    disassemble isa1 bytes base = disassemble isa2 bytes base := by
  by_cases hmod : bytes.length % 4 ≠ 0
  · simp [disassemble, hmod]
  · simp only [disassemble, if_neg hmod]
    exact disasmGo_empty_map_congr isa1 isa2 base hm hd bytes.length bytes 0 [] [] le_rfl

/-- C10 witness: the invariance applied at a concrete ISA and program. -/
theorem disassemble_ignores_reverse_symbol_map_witness :
    disassemble failingDisasmIsa [0, 0, 0, 0] 0 = disassemble failingDisasmIsa [0, 0, 0, 0] 0 :=
  disassemble_ignores_reverse_symbol_map failingDisasmIsa failingDisasmIsa [0, 0, 0, 0] 0
    (fun _ => rfl) (fun _ _ _ => rfl)

/-- C4: the two-line duplicate-label program yields exactly one error, at
source line 1 with the multiple-definitions message, and no program bytes;
and in general a symbol already bound in the symbol map that appears again
among a line's symbols adds exactly this error for that line while the first
binding stays in place. -/
theorem duplicate_symbol_single_error :
    assemble rv32i ["a: addi x1,x0,0", "a: addi x2,x0,0"] =
      { program := [], errors := [⟨1, "Multiple definitions of symbol 'a'"⟩] } ∧
    (∀ i syms off m e s v, mapLookup m s = some v → s ∈ syms →
      (⟨i, "Multiple definitions of symbol '" ++ s ++ "'"⟩ : Error) ∈ (pass2Syms i syms off m e).2 ∧
      mapLookup (pass2Syms i syms off m e).1 s = some v) := by
  refine ⟨rfl, ?_⟩
  intro i syms off m e s v h hmem
  exact ⟨pass2Syms_dup_error i syms off m e s v hmem h,
    pass2Syms_preserves i syms off m e s v h⟩

/-- C4 witness: the general statement applied to a concrete duplicate. -/
theorem duplicate_symbol_single_error_witness :
    (⟨1, "Multiple definitions of symbol '" ++ "a" ++ "'"⟩ : Error)
      ∈ (pass2Syms 1 ["a"] 4 [("a", 0)] []).2 ∧
    mapLookup (pass2Syms 1 ["a"] 4 [("a", 0)] []).1 "a" = some 0 :=
  duplicate_symbol_single_error.2 1 ["a"] 4 [("a", 0)] [] "a" 0 rfl (by simp)

/-- C3: when pass 2 succeeds, every recorded `LinkRequest` has its 4-byte
window inside the emitted code image (`offset + 4 ≤ codeImage.size`), and
pass 3 preserves the image size while reading and rewriting the words at
those offsets, so the bound continues to hold during linking. -/
theorem link_requests_within_code_image :
    (∀ (isa : ISAModel) (lines : List TokenizedSrcLine) (P : List Nat) (m : SymbolMap)
        (lnk : List LinkRequest), pass2 isa lines = (.ok P, m, lnk) →
        ∀ req ∈ lnk, req.offset + 4 ≤ P.length) ∧
    (∀ (m : SymbolMap) (reqs : List LinkRequest) (P : List Nat),
        (pass3 m reqs P).1.length = P.length) := by
  constructor
  · intro isa lines P m lnk h req hreq
    have hinv := pass2Go_link_bound isa lines [] [] [] [] (by simp)
    have h1 := congrArg Prod.fst h
    have h3 := congrArg (fun x => x.2.2) h
    simp only [pass2] at h1 h3
    by_cases hc : (pass2Go isa lines [] [] [] []).2.1 = []
    · rw [if_pos hc] at h1
      have hP : (pass2Go isa lines [] [] [] []).1 = P := by
        simpa using h1
      have hl : (pass2Go isa lines [] [] [] []).2.2.2 = lnk := by
        simpa using h3
      rw [← hP]
      exact hinv req (by rw [hl]; exact hreq)
    · rw [if_neg hc] at h1
      simp at h1
  · intro m reqs P
    exact pass3Go_length m reqs P []

/-- C3 witness: the bound applied to a concrete assembled line. -/
theorem link_requests_within_code_image_witness :
    ∀ req ∈ ([] : List LinkRequest), req.offset + 4 ≤ ([147, 0, 0, 0] : List Nat).length :=
  link_requests_within_code_image.1 rv32i [⟨0, [], [], ["addi", "x1,x0,0"]⟩]
    [147, 0, 0, 0] [] [] rfl

/-- C2: wherever a run of pure label lines (possibly interleaved with empty
lines) is followed by a line with tokens — at any position in the source,
with any pending carry and any lines already processed — pass 0 merges the
symbols of all those label lines, the pending carry and the token line's own
symbols into the single appended line; and whenever pass 2 reaches a line,
from any image built so far, every one of that line's symbols that is not
already bound is bound in the `SymbolMap` to the current image size — the
byte offset at which that line's bytes are emitted.  Consecutive label-only
lines therefore accumulate and all bind to that same next emitted offset. -/
theorem carried_labels_bind_next_emitted_offset (isa : ISAModel)
    (seg : List String) (tline : String) (rest : List String)
    (i0 : Nat) (c : List String) (e : List Error) (acc : List TokenizedSrcLine)
    (tslI : TokenizedSrcLine)
    (hseg : ∀ j (hj : j < seg.length),
      seg.get ⟨j, hj⟩ = "" ∨ isLabelOnlyLine isa (i0 + j) (seg.get ⟨j, hj⟩))
    (hne : tline ≠ "")
    (hstep : pass0Step isa (i0 + seg.length) tline = .ok tslI)
    (htok : tslI.tokens ≠ []) :
    (∃ c', pass0Go isa (seg ++ tline :: rest) i0 c e acc =
        pass0Go isa rest (i0 + seg.length + 1) [] e
          (acc ++ [⟨tslI.sourceLine, setUnion tslI.symbols c', tslI.directives, tslI.tokens⟩]) ∧
      (∀ s ∈ c, s ∈ setUnion tslI.symbols c') ∧
      (∀ j (hj : j < seg.length) tsl, pass0Step isa (i0 + j) (seg.get ⟨j, hj⟩) = .ok tsl →
        ∀ s ∈ tsl.symbols, s ∈ setUnion tslI.symbols c')) ∧
    (∀ (tslM : TokenizedSrcLine) (post : List TokenizedSrcLine) (P : List Nat)
        (e2 : List Error) (m : SymbolMap) (l : List LinkRequest) (s : String),
      s ∈ tslM.symbols → mapLookup m s = none →
      mapLookup (pass2Go isa (tslM :: post) P e2 m l).2.2.1 s = some P.length) := by
  constructor
  · obtain ⟨c', hgo, hsub, hsyms⟩ := pass0Go_seg isa seg (tline :: rest) i0 c e acc hseg
    have htl := pass0Go_token_line isa tline rest (i0 + seg.length) c' e acc tslI hne hstep htok
    refine ⟨c', ?_, ?_, ?_⟩
    · rw [hgo, htl]
    · intro s hs
      exact (mem_setUnion s tslI.symbols c').mpr (Or.inr (hsub s hs))
    · intro j hj tsl hstepj s hsj
      exact (mem_setUnion s tslI.symbols c').mpr (Or.inr (hsyms j hj tsl hstepj s hsj))
  · intro tslM post P e2 m l s hmem hnone
    have hbind : mapLookup (pass2Syms tslM.sourceLine tslM.symbols P.length m e2).1 s
        = some P.length :=
      pass2Syms_binds tslM.sourceLine tslM.symbols P.length m e2 s hmem hnone
    simp only [pass2Go]
    cases hd : assembleDirective isa tslM with
    | error e3 => exact pass2Go_preserves isa _ _ _ _ _ s P.length hbind
    | ok od =>
      cases od with
      | some bytes => exact pass2Go_preserves isa _ _ _ _ _ s P.length hbind
      | none =>
        cases hi : assembleInstruction isa tslM with
        | error e3 => exact pass2Go_preserves isa _ _ _ _ _ s P.length hbind
        | ok mc => exact pass2Go_preserves isa _ _ _ _ _ s P.length hbind

/-- C2 witness: two label-only lines separated by an empty line starting at
source index 2, with a pending carry, merging into the following instruction
line; and the merged line's label binding at a nonzero image offset — with
four bytes already emitted, `lbl` binds to offset 4, the offset at which the
line's own bytes are emitted. -/
theorem carried_labels_bind_next_emitted_offset_witness :
    mapLookup (pass2Go rv32i [⟨5, ["lbl", "x"], [], ["addi", "x1,x0,0"]⟩]
      [147, 0, 0, 0] [] [("a", 0)] []).2.2.1 "lbl" = some 4 :=
  (carried_labels_bind_next_emitted_offset rv32i ["lbl:", "", "x:"] "addi x1,x0,0" []
    2 ["pre"] [] [] ⟨5, [], [], ["addi", "x1,x0,0"]⟩
    (by
      intro j hj
      rcases j with _ | _ | _ | j
      · exact Or.inr ⟨⟨2, ["lbl"], [], []⟩, rfl, by decide, rfl⟩
      · exact Or.inl rfl
      · exact Or.inr ⟨⟨4, ["x"], [], []⟩, rfl, by decide, rfl⟩
      · simp at hj
        omega)
    (by decide) rfl (by decide)).2
    ⟨5, ["lbl", "x"], [], ["addi", "x1,x0,0"]⟩ [] [147, 0, 0, 0] [] [("a", 0)] [] "lbl"
    (by decide) rfl
